import Mathlib

/-!
# Verification of the `compress-rs` streaming codecs (JS implementation)

Shallow embedding of `src/js-compressor/rle.js` and `src/js-compressor/lz.js`.

Bytes are modelled as `Nat` (the JS transforms receive `Buffer` entries,
which are integers in `[0, 255]`); statements that quantify over raw input
sequences carry the hypothesis `∀ b ∈ S, b < 256` where byte-ness matters.

The JS streams stage their output in a 64KB buffer (`_outputBuffer`) that is
flushed in order and never reorders or drops bytes; the embedding therefore
models the emitted byte sequence directly, in emission order.
-/

/-! ## RLE codec (`src/js-compressor/rle.js`) -/

/-- Error kinds of the RLE decoder, following the spec's taxonomy for the
`Error` objects thrown by `rle.js`: wrong magic byte, zero count in a pair,
stream ending mid-pair. -/
inductive RLEError where
  | formatError
  | corruptData
  | truncated
deriving DecidableEq

/-- One step of `RLECompressTransform._transform`'s per-byte loop.
State is `_lastByte`/`_count` (`none` = `_lastByte === null`); returns the
new state and the pair bytes emitted (empty or `[value, count]`). -/
def rleEncStep : Option (Nat × Nat) → Nat → Option (Nat × Nat) × List Nat
  | none, b => (some (b, 1), [])
  | some (v, c), b =>
    if b = v ∧ c < 255 then (some (v, c + 1), [])
    else (some (b, 1), [v, c])

/-- `RLECompressTransform._transform` over one chunk: the per-byte loop,
collecting the pair bytes emitted along the way. -/
def rleEncFeed : Option (Nat × Nat) → List Nat → Option (Nat × Nat) × List Nat
  | s, [] => (s, [])
  | s, b :: rest =>
    let p := rleEncStep s b
    let q := rleEncFeed p.1 rest
    (q.1, p.2 ++ q.2)

/-- Feeding a list of chunks in sequence to `RLECompressTransform`. -/
def rleEncFeedAll : Option (Nat × Nat) → List (List Nat) → Option (Nat × Nat) × List Nat
  | s, [] => (s, [])
  | s, c :: cs =>
    let p := rleEncFeed s c
    let q := rleEncFeedAll p.1 cs
    (q.1, p.2 ++ q.2)

/-- `RLECompressTransform._flush`: emit the still-open run, if any. -/
def rleEncFinal : Option (Nat × Nat) → List Nat
  | none => []
  | some (v, c) => [v, c]

/-- Complete output of `RLECompressTransform` for a sequence of input chunks:
the magic byte `0x52` (written before the first run, or at flush for empty
input), the pairs emitted by the `_transform` calls, and the final run. -/
def rleCompressChunks (chunks : List (List Nat)) : List Nat :=
  let p := rleEncFeedAll none chunks
  0x52 :: (p.2 ++ rleEncFinal p.1)

/-- RLE compression of a whole input fed as a single chunk. -/
def rleCompress (input : List Nat) : List Nat :=
  rleCompressChunks [input]

/-- The pair loop of `RLEDecompressTransform._transform`: consume complete
`[value, count]` pairs while at least two bytes remain, expanding each into
`count` copies of `value`; a pair with `count = 0` raises
"Invalid RLE sequence: count cannot be zero". Returns the expanded output
and the unconsumed remainder (zero or one byte). -/
def rlePairs : List Nat → Except RLEError (List Nat × List Nat)
  | [] => .ok ([], [])
  | [v] => .ok ([], [v])
  | v :: c :: rest =>
    if c = 0 then .error .corruptData
    else
      match rlePairs rest with
      | .error e => .error e
      | .ok (o, l) => .ok (List.replicate c v ++ o, l)

/-- State of `RLEDecompressTransform` between `_transform` calls:
`_checkedMagicByte`, the buffered unconsumed input `_buffer`, and
`_processedBytes` (total decompressed bytes generated). -/
structure RLEDecState where
  checkedMagic : Bool
  buf : List Nat
  processed : Nat
deriving DecidableEq

/-- Initial `RLEDecompressTransform` state. -/
def rleDecInit : RLEDecState := ⟨false, [], 0⟩

/-- `RLEDecompressTransform._transform`: append the chunk to the buffer,
validate the magic byte `0x52` on first data, then run the pair loop. -/
def rleDecFeed (s : RLEDecState) (chunk : List Nat) :
    Except RLEError (RLEDecState × List Nat) :=
  let buf := s.buf ++ chunk
  if s.checkedMagic then
    match rlePairs buf with
    | .error e => .error e
    | .ok (o, l) => .ok (⟨true, l, s.processed + o.length⟩, o)
  else
    match buf with
    | [] => .ok (⟨false, [], s.processed⟩, [])
    | m :: rest =>
      if m = 0x52 then
        match rlePairs rest with
        | .error e => .error e
        | .ok (o, l) => .ok (⟨true, l, s.processed + o.length⟩, o)
      else .error .formatError

/-- Feeding a list of chunks in sequence to `RLEDecompressTransform`,
concatenating the decoded output. -/
def rleDecFeedAll : RLEDecState → List (List Nat) → Except RLEError (RLEDecState × List Nat)
  | s, [] => .ok (s, [])
  | s, c :: cs =>
    match rleDecFeed s c with
    | .error e => .error e
    | .ok (s₁, o₁) =>
      match rleDecFeedAll s₁ cs with
      | .error e => .error e
      | .ok (s₂, o₂) => .ok (s₂, o₁ ++ o₂)

/-- `RLEDecompressTransform._flush`: a leftover buffered byte is an
incomplete pair ("stream ends with incomplete pair"), except for the
branch that accepts `checkedMagic ∧ processed = 0 ∧ buffer length = 1`
(the code's "input seems to have contained only the magic byte" case). -/
def rleDecFlush (s : RLEDecState) : Except RLEError Unit :=
  if 0 < s.buf.length then
    if s.checkedMagic = true ∧ s.processed = 0 ∧ s.buf.length = 1 then .ok ()
    else .error .truncated
  else .ok ()

/-- End-to-end RLE decode: feed every chunk, then flush. -/
def rleDecodeChunks (chunks : List (List Nat)) : Except RLEError (List Nat) :=
  match rleDecFeedAll rleDecInit chunks with
  | .error e => .error e
  | .ok (s, out) =>
    match rleDecFlush s with
    | .error e => .error e
    | .ok _ => .ok out

/-- RLE decompression of a whole input fed as a single chunk. -/
def rleDecompress (input : List Nat) : Except RLEError (List Nat) :=
  rleDecodeChunks [input]

/-! ## LZ77 codec (`src/js-compressor/lz.js`) -/

/-- Error kinds of the LZ77 decoder, following the spec's taxonomy for the
`Error` objects thrown by `lz.js`: wrong magic byte, invalid match token
(zero offset/length or offset beyond the history), unknown flag byte,
stream ending mid-token, and the decoder's own "Invalid history index"
logic error. -/
inductive LZError where
  | formatError
  | corruptData
  | unknownToken
  | truncated
  | historyIndex
deriving DecidableEq

/-- Append a byte at the back of a window/history buffer and, when the
length exceeds `WINDOW_SIZE = 20`, `shift()` the oldest byte off the front
(the eviction rule shared by `_searchBuffer` and `_historyBuffer`). -/
def pushWindow (w : List Nat) (b : Nat) : List Nat :=
  let w2 := w ++ [b]
  if 20 < w2.length then w2.tail else w2

/-- Append several bytes in order, evicting after each append
(the per-byte shift loop of `LZCompressTransform._transform`). -/
def pushMany (w : List Nat) (bs : List Nat) : List Nat :=
  bs.foldl pushWindow w

/-- The inner `while` of `LZCompressTransform._findBestMatch`: the common
prefix length of two lists, stopping at the end of either list or at the
first mismatch (`currentLength < lookaheadLimit`,
`i + currentLength < searchLimit`, equality of the compared bytes). -/
def commonLen : List Nat → List Nat → Nat
  | a :: as, b :: bs => if a = b then commonLen as bs + 1 else 0
  | _, _ => 0

/-- The scan loop of `LZCompressTransform._findBestMatch`: for
`i = 0 … searchLen-1` compute the common prefix length of
`searchBuffer[i..]` and the lookahead, updating the best `(offset, length)`
whenever `currentLength >= bestMatchLength` (so later, equal-length matches
replace the best), with `offset = searchLen - i`. -/
def bestStep (search look : List Nat) (best : Nat × Nat) (i : Nat) : Nat × Nat :=
  let cl := commonLen (List.drop i search) look
  if best.2 ≤ cl then (search.length - i, cl) else best

def bestMatchScan (search look : List Nat) : Nat × Nat :=
  (List.range search.length).foldl (bestStep search look) (0, 0)

/-- `LZCompressTransform._findBestMatch`: returns `(offset, length)`, or
`(0, 0)` when the window is empty, the lookahead is shorter than
`MIN_MATCH_LENGTH = 3`, or the best match fails the
`length ≥ 3 ∧ offset ≤ 255` acceptance test. -/
def findBestMatch (search look : List Nat) : Nat × Nat :=
  if search.length = 0 ∨ look.length < 3 then (0, 0)
  else
    let r := bestMatchScan search look
    if 3 ≤ r.2 ∧ r.1 ≤ 255 then r else (0, 0)

/-- The `while (true)` loop of `LZCompressTransform._transform`, with the
`_fillLookahead` refill inlined (take up to `MAX_MATCH_LENGTH = 255` bytes
into the lookahead): emit a match token `[0x01, offset, length]` and shift
the matched bytes into the window, or emit a literal token `[0x00, byte]`
and shift one byte.  Returns the emitted bytes and the final search buffer.
The loop consumes at least one byte per iteration, so `fuel` bounds the
iteration count; callers pass `fuel = look.length + input.length`, which is
always sufficient, making the fuel-exhaustion branch unreachable. -/
def lzEncLoopF : Nat → List Nat → List Nat → List Nat → List Nat × List Nat
  | 0, search, _, _ => ([], search)
  | fuel + 1, search, look, input =>
    let t := min (255 - look.length) input.length
    let lk := look ++ input.take t
    let inp := input.drop t
    match lk with
    | [] => ([], search)
    | b :: rest =>
      let m := findBestMatch search (b :: rest)
      if 3 ≤ m.2 then
        let r := lzEncLoopF fuel (pushMany search ((b :: rest).take m.2))
                   ((b :: rest).drop m.2) inp
        (1 :: m.1 :: m.2 :: r.1, r.2)
      else
        let r := lzEncLoopF fuel (pushWindow search b) rest inp
        (0 :: b :: r.1, r.2)

/-- One `LZCompressTransform._transform` call.  The loop only exits once the
lookahead and the pending input are both exhausted, so the lookahead is
empty between chunks and the carried state is just the search buffer. -/
def lzFeed (search chunk : List Nat) : List Nat × List Nat :=
  lzEncLoopF chunk.length search [] chunk

/-- Feeding a list of chunks in sequence to `LZCompressTransform`. -/
def lzEncFeedAll : List Nat → List (List Nat) → List Nat × List Nat
  | search, [] => ([], search)
  | search, c :: cs =>
    let p := lzFeed search c
    let q := lzEncFeedAll p.2 cs
    (p.1 ++ q.1, q.2)

/-- Complete output of `LZCompressTransform` for a sequence of input chunks:
the magic byte `0x4C` followed by the emitted tokens (`_flush` finds the
lookahead and input buffers empty, so it adds nothing). -/
def lzCompressChunks (chunks : List (List Nat)) : List Nat :=
  0x4C :: (lzEncFeedAll [] chunks).1

/-- LZ77 compression of a whole input fed as a single chunk. -/
def lzCompress (input : List Nat) : List Nat :=
  lzCompressChunks [input]

/-- The match-copy loop of `LZDecompressTransform._transform`: for
`i = 0 … length-1` read `historyBuffer[startIndex + i]` from the *current*
(mutating) history, emit it, and append it with eviction.  `startIndex` is
fixed before the loop.  An out-of-range read (`undefined` in JS) is the
"Invalid history index" error, modelled as `none`. -/
def lzCopyAux : List Nat → Nat → Nat → Nat → Option (List Nat × List Nat)
  | hist, _, _, 0 => some ([], hist)
  | hist, start, i, rem + 1 =>
    match hist.get? (start + i) with
    | none => none
    | some b =>
      match lzCopyAux (pushWindow hist b) start (i + 1) rem with
      | none => none
      | some (o, h) => some (b :: o, h)

/-- The token loop of `LZDecompressTransform._transform`: consume complete
tokens while available.  `[0x00, byte]` is a literal; `[0x01, offset,
length]` is a match, validated by `offset ≠ 0 ∧ length ≠ 0` and
`offset ≤ history.length`; any other flag byte is an error.  A truncated
token at the end of the buffer is retained as the leftover.  Returns the
decoded output, the leftover buffer, and the final history. -/
def lzTokens : List Nat → List Nat → Except LZError (List Nat × List Nat × List Nat)
  | hist, [] => .ok ([], [], hist)
  | hist, 0 :: rest =>
    match rest with
    | [] => .ok ([], [0], hist)
    | b :: rest2 =>
      match lzTokens (pushWindow hist b) rest2 with
      | .error e => .error e
      | .ok (o, l, h) => .ok (b :: o, l, h)
  | hist, 1 :: rest =>
    match rest with
    | [] => .ok ([], [1], hist)
    | off :: rest1 =>
      match rest1 with
      | [] => .ok ([], [1, off], hist)
      | len :: rest2 =>
        if off = 0 ∨ len = 0 then .error .corruptData
        else if hist.length < off then .error .corruptData
        else
          match lzCopyAux hist (hist.length - off) 0 len with
          | none => .error .historyIndex
          | some (o, h) =>
            match lzTokens h rest2 with
            | .error e => .error e
            | .ok (o₂, l, h₂) => .ok (o ++ o₂, l, h₂)
  | _, _ :: _ => .error .unknownToken

/-- State of `LZDecompressTransform` between `_transform` calls:
`_checkedMagicByte`, the buffered unconsumed input `_buffer`, and the
history buffer `_historyBuffer`. -/
structure LZDecState where
  checkedMagic : Bool
  buf : List Nat
  hist : List Nat
deriving DecidableEq

/-- Initial `LZDecompressTransform` state. -/
def lzDecInit : LZDecState := ⟨false, [], []⟩

/-- `LZDecompressTransform._transform`: append the chunk to the buffer,
validate the magic byte `0x4C` on first data, then run the token loop. -/
def lzDecFeed (s : LZDecState) (chunk : List Nat) :
    Except LZError (LZDecState × List Nat) :=
  let buf := s.buf ++ chunk
  if s.checkedMagic then
    match lzTokens s.hist buf with
    | .error e => .error e
    | .ok (o, l, h) => .ok (⟨true, l, h⟩, o)
  else
    match buf with
    | [] => .ok (⟨false, [], s.hist⟩, [])
    | m :: rest =>
      if m = 0x4C then
        match lzTokens s.hist rest with
        | .error e => .error e
        | .ok (o, l, h) => .ok (⟨true, l, h⟩, o)
      else .error .formatError

/-- Feeding a list of chunks in sequence to `LZDecompressTransform`,
concatenating the decoded output. -/
def lzDecFeedAll : LZDecState → List (List Nat) → Except LZError (LZDecState × List Nat)
  | s, [] => .ok (s, [])
  | s, c :: cs =>
    match lzDecFeed s c with
    | .error e => .error e
    | .ok (s₁, o₁) =>
      match lzDecFeedAll s₁ cs with
      | .error e => .error e
      | .ok (s₂, o₂) => .ok (s₂, o₁ ++ o₂)

/-- `LZDecompressTransform._flush`: an empty stream with no magic byte is
valid; any leftover buffered bytes are an incomplete token. -/
def lzDecFlush (s : LZDecState) : Except LZError Unit :=
  if s.checkedMagic = false ∧ s.buf = [] then .ok ()
  else if s.buf ≠ [] then .error .truncated
  else .ok ()

/-- End-to-end LZ77 decode: feed every chunk, then flush. -/
def lzDecodeChunks (chunks : List (List Nat)) : Except LZError (List Nat) :=
  match lzDecFeedAll lzDecInit chunks with
  | .error e => .error e
  | .ok (s, out) =>
    match lzDecFlush s with
    | .error e => .error e
    | .ok _ => .ok out

/-- LZ77 decompression of a whole input fed as a single chunk. -/
def lzDecompress (input : List Nat) : Except LZError (List Nat) :=
  lzDecodeChunks [input]

/-- Modelled from the spec: the standard LZ sliding-window copy semantics
("Copy `length` bytes starting at `history.length - offset` from history,
emitting and appending each copied byte … as it is produced"), phrased over
the conceptual stream: each produced byte is read at the running index from
the stream extended with the bytes produced so far.  This is the
comparison point for the decoder's actual copy loop (`lzCopyAux`). -/
def overlapCopy : List Nat → Nat → Nat → List Nat
  | _, _, 0 => []
  | stream, s, n + 1 =>
    match stream.get? s with
    | none => []
    | some b => b :: overlapCopy (stream ++ [b]) (s + 1) n

/-- Well-formed LZ77 token streams as emitted by the encoder: a sequence of
literal tokens `[0x00, byte]` and match tokens `[0x01, offset, length]`
with `1 ≤ offset ≤ 20`, `3 ≤ length` and `length ≤ offset`. -/
inductive TokenSeq : List Nat → Prop
  | nil : TokenSeq []
  | lit (b : Nat) {rest : List Nat} : TokenSeq rest → TokenSeq (0 :: b :: rest)
  | mtch (off len : Nat) {rest : List Nat} :
      1 ≤ off → off ≤ 20 → 3 ≤ len → len ≤ off →
      TokenSeq rest → TokenSeq (1 :: off :: len :: rest)

/-! ## Decidability of result comparison -/

/-- Decidable equality of `Except` results, so concrete codec runs can be
settled by `decide`. -/
instance instDecEqExcept {ε α : Type} [DecidableEq ε] [DecidableEq α] :
    DecidableEq (Except ε α)
  | .error e, .error f =>
    if h : e = f then .isTrue (by rw [h]) else .isFalse (fun hh => h (by cases hh; rfl))
  | .error _, .ok _ => .isFalse (fun hh => Except.noConfusion hh)
  | .ok _, .error _ => .isFalse (fun hh => Except.noConfusion hh)
  | .ok a, .ok b =>
    if h : a = b then .isTrue (by rw [h]) else .isFalse (fun hh => h (by cases hh; rfl))

/-! ## Helper lemmas: RLE pair loop -/

/-- The greedy pair loop composes across buffer boundaries: running it on
`x ++ y` is running it on `x` and then on the leftover of `x` followed
by `y`. -/
theorem rlePairs_append : (x y : List Nat) →
    rlePairs (x ++ y) =
      match rlePairs x with
      | .error e => .error e
      | .ok (o, l) =>
        match rlePairs (l ++ y) with
        | .error e => .error e
        | .ok (o₂, l₂) => .ok (o ++ o₂, l₂)
  | [], y => by
    cases h : rlePairs y with
    | error e => simp [rlePairs, h]
    | ok p => cases p with | mk o l => simp [rlePairs, h]
  | [v], y => by
    cases h : rlePairs (v :: y) with
    | error e => simp [rlePairs, h]
    | ok p => cases p with | mk o l => simp [rlePairs, h]
  | v :: c :: rest, y => by
    by_cases hc : c = 0
    · simp [rlePairs, hc]
    · have ih := rlePairs_append rest y
      cases hr : rlePairs rest with
      | error e =>
        simp only [List.cons_append, rlePairs, if_neg hc, hr] at ih ⊢
        simp [ih]
      | ok p =>
        cases p with
        | mk o l =>
          simp only [List.cons_append, rlePairs, if_neg hc, hr] at ih ⊢
          cases h2 : rlePairs (l ++ y) with
          | error e => simp [ih, h2]
          | ok q => cases q with | mk o₂ l₂ => simp [ih, h2, List.append_assoc]

/-- The leftover of the pair loop is at most one byte, hence quiescent:
running the loop on it again consumes nothing. -/
theorem rlePairs_ok_leftover : (x : List Nat) → ∀ (o l : List Nat),
    rlePairs x = .ok (o, l) → rlePairs l = .ok ([], l)
  | [], o, l => by
    intro h
    simp [rlePairs] at h
    obtain ⟨h1, h2⟩ := h
    subst h2
    simp [rlePairs]
  | [v], o, l => by
    intro h
    simp [rlePairs] at h
    obtain ⟨h1, h2⟩ := h
    subst h2
    simp [rlePairs]
  | v :: c :: rest, o, l => by
    intro h
    by_cases hc : c = 0
    · simp [rlePairs, hc] at h
    · simp only [rlePairs, if_neg hc] at h
      cases hr : rlePairs rest with
      | error e => rw [hr] at h; exact absurd h (by simp)
      | ok p =>
        cases p with
        | mk o' l' =>
          rw [hr] at h
          simp at h
          exact h.2 ▸ rlePairs_ok_leftover rest o' l' hr

/-- Every error the pair loop reports is the zero-count `CorruptDataError`. -/
theorem rlePairs_error_kind : (x : List Nat) → ∀ (e : RLEError),
    rlePairs x = .error e → e = .corruptData
  | [], e => by simp [rlePairs]
  | [v], e => by simp [rlePairs]
  | v :: c :: rest, e => by
    intro h
    by_cases hc : c = 0
    · simp [rlePairs, hc] at h; exact h.symm
    · simp only [rlePairs, if_neg hc] at h
      cases hr : rlePairs rest with
      | error e' =>
        rw [hr] at h
        simp at h
        exact h ▸ rlePairs_error_kind rest e' hr
      | ok p => cases p with | mk o' l' => rw [hr] at h; exact absurd h (by simp)

/-! ## Helper lemmas: RLE decoder state machine -/

/-- Invariant of reachable `RLEDecompressTransform` states: the buffer is
empty before the magic byte is seen, and the buffered leftover contains no
complete pair (re-running the pair loop on it consumes nothing). -/
def RLEQuiescent (s : RLEDecState) : Prop :=
  (s.checkedMagic = false → s.buf = []) ∧ rlePairs s.buf = .ok ([], s.buf)

theorem rleDecInit_quiescent : RLEQuiescent rleDecInit := by
  exact ⟨fun _ => rfl, by simp [rleDecInit, rlePairs]⟩

theorem rleDecFeed_quiescent (s : RLEDecState) (c : List Nat) (s' : RLEDecState)
    (o : List Nat) (h : rleDecFeed s c = .ok (s', o)) : RLEQuiescent s' := by
  unfold rleDecFeed at h
  by_cases hm : s.checkedMagic = true
  · rw [if_pos hm] at h
    cases hp : rlePairs (s.buf ++ c) with
    | error e => rw [hp] at h; exact absurd h (by simp)
    | ok p =>
      cases p with
      | mk o₁ l =>
        rw [hp] at h
        simp only [Except.ok.injEq, Prod.mk.injEq] at h
        rw [← h.1]
        exact ⟨fun hf => by simp at hf, rlePairs_ok_leftover _ _ _ hp⟩
  · rw [if_neg hm] at h
    cases hb : s.buf ++ c with
    | nil =>
      rw [hb] at h
      dsimp only at h
      simp only [Except.ok.injEq, Prod.mk.injEq] at h
      rw [← h.1]
      exact ⟨fun _ => rfl, by simp [rlePairs]⟩
    | cons m rest =>
      rw [hb] at h
      dsimp only at h
      by_cases hmg : m = 0x52
      · rw [if_pos hmg] at h
        cases hp : rlePairs rest with
        | error e => rw [hp] at h; exact absurd h (by simp)
        | ok p =>
          cases p with
          | mk o₁ l =>
            rw [hp] at h
            simp only [Except.ok.injEq, Prod.mk.injEq] at h
            rw [← h.1]
            exact ⟨fun hf => by simp at hf, rlePairs_ok_leftover _ _ _ hp⟩
      · rw [if_neg hmg] at h
        exact absurd h (by simp)

theorem rleDecFeed_checked (b : List Nat) (p : Nat) (c : List Nat) :
    rleDecFeed ⟨true, b, p⟩ c =
      match rlePairs (b ++ c) with
      | .error e => .error e
      | .ok (o, l) => .ok (⟨true, l, p + o.length⟩, o) := rfl

theorem rleDecFeed_unchecked (p : Nat) (c : List Nat) :
    rleDecFeed ⟨false, [], p⟩ c =
      match c with
      | [] => .ok (⟨false, [], p⟩, [])
      | m :: rest =>
        if m = 0x52 then
          match rlePairs rest with
          | .error e => .error e
          | .ok (o, l) => .ok (⟨true, l, p + o.length⟩, o)
        else .error .formatError := rfl

/-- `_transform` composes across chunk boundaries: feeding `c₁ ++ c₂` is
feeding `c₁` and then `c₂`, with the outputs concatenated. -/
theorem rleDecFeed_append (s : RLEDecState) (hq : s.checkedMagic = false → s.buf = [])
    (c₁ c₂ : List Nat) :
    rleDecFeed s (c₁ ++ c₂) =
      match rleDecFeed s c₁ with
      | .error e => .error e
      | .ok (s₁, o₁) =>
        match rleDecFeed s₁ c₂ with
        | .error e => .error e
        | .ok (s₂, o₂) => .ok (s₂, o₁ ++ o₂) := by
  obtain ⟨cm, sbuf, sp⟩ := s
  cases cm with
  | true =>
    rw [rleDecFeed_checked, rleDecFeed_checked, ← List.append_assoc,
      rlePairs_append (sbuf ++ c₁) c₂]
    cases h1 : rlePairs (sbuf ++ c₁) with
    | error e => rfl
    | ok p =>
      cases p with
      | mk o₁ l₁ =>
        dsimp only
        rw [rleDecFeed_checked]
        cases h2 : rlePairs (l₁ ++ c₂) with
        | error e => rfl
        | ok q =>
          cases q with
          | mk o₂ l₂ => simp [Nat.add_assoc]
  | false =>
    have hb : sbuf = [] := hq rfl
    subst hb
    cases c₁ with
    | nil =>
      rw [List.nil_append]
      conv_rhs => rw [rleDecFeed_unchecked]
      dsimp only
      cases h2 : rleDecFeed ⟨false, [], sp⟩ c₂ with
      | error e => rfl
      | ok p => cases p with | mk s₂ o₂ => simp
    | cons m rest =>
      rw [List.cons_append, rleDecFeed_unchecked, rleDecFeed_unchecked]
      dsimp only
      by_cases hmg : m = 0x52
      · rw [if_pos hmg, if_pos hmg, rlePairs_append rest c₂]
        cases h1 : rlePairs rest with
        | error e => rfl
        | ok p =>
          cases p with
          | mk o₁ l₁ =>
            dsimp only
            rw [rleDecFeed_checked]
            cases h2 : rlePairs (l₁ ++ c₂) with
            | error e => rfl
            | ok q =>
              cases q with
              | mk o₂ l₂ => simp [Nat.add_assoc]
      · rw [if_neg hmg, if_neg hmg]

/-- Feeding a sequence of chunks equals feeding their concatenation. -/
theorem rleDecFeedAll_join : (chunks : List (List Nat)) → ∀ (s : RLEDecState),
    RLEQuiescent s → rleDecFeedAll s chunks = rleDecFeed s chunks.flatten
  | [], s, hq => by
    obtain ⟨cm, sbuf, sp⟩ := s
    cases cm with
    | true =>
      show Except.ok _ = _
      rw [List.flatten_nil, rleDecFeed_checked, List.append_nil, hq.2]
      simp
    | false =>
      have hb : sbuf = [] := hq.1 rfl
      subst hb
      rw [List.flatten_nil, rleDecFeed_unchecked]
      rfl
  | c :: cs, s, hq => by
    rw [List.flatten_cons, rleDecFeed_append s hq.1 c cs.flatten]
    dsimp only [rleDecFeedAll]
    cases h1 : rleDecFeed s c with
    | error e => rfl
    | ok p =>
      cases p with
      | mk s₁ o₁ =>
        dsimp only
        rw [← rleDecFeedAll_join cs s₁ (rleDecFeed_quiescent s c s₁ o₁ h1)]

/-- Decoding a chunk sequence equals decoding the concatenated stream. -/
theorem rleDecodeChunks_flatten (chunks : List (List Nat)) :
    rleDecodeChunks chunks = rleDecodeChunks [chunks.flatten] := by
  unfold rleDecodeChunks
  rw [rleDecFeedAll_join chunks rleDecInit rleDecInit_quiescent]
  dsimp only [rleDecFeedAll]
  cases h : rleDecFeed rleDecInit chunks.flatten with
  | error e => rfl
  | ok p => cases p with | mk s1 o => simp

/-! ## Helper lemmas: RLE round trip -/

/-- The RLE encoder's per-chunk loop composes across chunk boundaries. -/
theorem rleEncFeed_append : (c₁ : List Nat) → ∀ (s : Option (Nat × Nat)) (c₂ : List Nat),
    rleEncFeed s (c₁ ++ c₂) =
      ((rleEncFeed (rleEncFeed s c₁).1 c₂).1,
        (rleEncFeed s c₁).2 ++ (rleEncFeed (rleEncFeed s c₁).1 c₂).2)
  | [], s, c₂ => by simp [rleEncFeed]
  | b :: rest, s, c₂ => by
    simp only [List.cons_append, rleEncFeed, List.append_eq]
    rw [rleEncFeed_append rest (rleEncStep s b).1 c₂]
    simp [List.append_assoc]

/-- Feeding the encoder a sequence of chunks equals feeding their
concatenation. -/
theorem rleEncFeedAll_join : (chunks : List (List Nat)) → ∀ (s : Option (Nat × Nat)),
    rleEncFeedAll s chunks = rleEncFeed s chunks.flatten
  | [], s => by simp [rleEncFeedAll, rleEncFeed]
  | c :: cs, s => by
    simp only [List.flatten_cons, rleEncFeedAll]
    rw [rleEncFeedAll_join cs (rleEncFeed s c).1, rleEncFeed_append c s cs.flatten]

/-- Decoding the pairs emitted for `S` from an open run `(v, c)` recovers
`replicate c v ++ S` exactly, with no leftover. -/
theorem rleRoundTripAux : (S : List Nat) → ∀ (v c : Nat), 1 ≤ c → c ≤ 255 →
    rlePairs ((rleEncFeed (some (v, c)) S).2 ++ rleEncFinal (rleEncFeed (some (v, c)) S).1) =
      .ok (List.replicate c v ++ S, [])
  | [], v, c, h1, h255 => by
    have hc : ¬c = 0 := by omega
    simp [rleEncFeed, rleEncFinal, rlePairs, hc]
  | b :: rest, v, c, h1, h255 => by
    by_cases hb : b = v ∧ c < 255
    · have step : rleEncStep (some (v, c)) b = (some (v, c + 1), []) := by
        simp [rleEncStep, hb]
      simp only [rleEncFeed, step]
      rw [List.nil_append]
      rw [rleRoundTripAux rest v (c + 1) (by omega) (by omega)]
      rw [hb.1, List.replicate_succ']
      simp
    · have step : rleEncStep (some (v, c)) b = (some (b, 1), [v, c]) := by
        simp only [rleEncStep]
        rw [if_neg hb]
      simp only [rleEncFeed, step]
      have : ([v, c] ++ (rleEncFeed (some (b, 1)) rest).2) ++
          rleEncFinal (rleEncFeed (some (b, 1)) rest).1 =
          v :: c :: ((rleEncFeed (some (b, 1)) rest).2 ++
            rleEncFinal (rleEncFeed (some (b, 1)) rest).1) := by simp
      rw [this]
      simp only [rlePairs, if_neg (by omega : ¬c = 0)]
      rw [rleRoundTripAux rest b 1 (by omega) (by omega)]
      simp

/-- Decoding the full RLE-encoder output for any chunked input recovers the
concatenated input. -/
theorem rleCompressChunks_decode (chunks : List (List Nat)) :
    rleDecodeChunks [rleCompressChunks chunks] = .ok chunks.flatten := by
  have key : rlePairs ((rleEncFeed none chunks.flatten).2 ++
      rleEncFinal (rleEncFeed none chunks.flatten).1) = .ok (chunks.flatten, []) := by
    cases hS : chunks.flatten with
    | nil => simp [rleEncFeed, rleEncFinal, rlePairs]
    | cons b rest =>
      simp only [rleEncFeed, rleEncStep]
      rw [List.nil_append, rleRoundTripAux rest b 1 (by omega) (by omega)]
      simp
  unfold rleCompressChunks
  rw [rleEncFeedAll_join chunks none]
  unfold rleDecodeChunks
  dsimp only [rleDecFeedAll]
  rw [show rleDecInit = (⟨false, [], 0⟩ : RLEDecState) from rfl, rleDecFeed_unchecked]
  dsimp only
  rw [if_pos rfl, key]
  dsimp only [rleDecFlush]
  simp

/-! ## Helper lemmas: LZ decoder token loop -/

/-- The token loop composes across buffer boundaries (bounded-length form
for the induction): running it on `x ++ y` is running it on `x` and then on
the leftover of `x` followed by `y`. -/
theorem lzTokens_append_aux : ∀ (n : Nat) (x : List Nat), x.length ≤ n →
    ∀ (hist y : List Nat),
    lzTokens hist (x ++ y) =
      match lzTokens hist x with
      | .error e => .error e
      | .ok (o, l, h) =>
        match lzTokens h (l ++ y) with
        | .error e => .error e
        | .ok (o₂, l₂, h₂) => .ok (o ++ o₂, l₂, h₂) := by
  intro n
  induction n with
  | zero =>
    intro x hx hist y
    have hxe : x = [] := List.length_eq_zero.mp (Nat.le_zero.mp hx)
    subst hxe
    rw [show lzTokens hist [] = .ok ([], [], hist) from rfl]
    dsimp only
    cases h2 : lzTokens hist ([] ++ y) with
    | error e => rfl
    | ok p => obtain ⟨o₂, l₂, h₂⟩ := p; simp
  | succ n ih =>
    intro x hx hist y
    cases x with
    | nil =>
      rw [show lzTokens hist [] = .ok ([], [], hist) from rfl]
      dsimp only
      cases h2 : lzTokens hist ([] ++ y) with
      | error e => rfl
      | ok p => obtain ⟨o₂, l₂, h₂⟩ := p; simp
    | cons f rest =>
      by_cases hf0 : f = 0
      · subst hf0
        cases rest with
        | nil =>
          rw [show lzTokens hist [0] = .ok ([], [0], hist) from rfl]
          dsimp only
          cases h2 : lzTokens hist ([0] ++ y) with
          | error e => rfl
          | ok p => obtain ⟨o₂, l₂, h₂⟩ := p; simp
        | cons b rest2 =>
          have e1 : lzTokens hist (0 :: b :: rest2) =
              (match lzTokens (pushWindow hist b) rest2 with
               | .error e => .error e
               | .ok (o, l, h) => .ok (b :: o, l, h)) := by rfl
          have e2 : lzTokens hist (0 :: b :: (rest2 ++ y)) =
              (match lzTokens (pushWindow hist b) (rest2 ++ y) with
               | .error e => .error e
               | .ok (o, l, h) => .ok (b :: o, l, h)) := by rfl
          rw [List.cons_append, List.cons_append, e2, e1,
            ih rest2 (by simp at hx; omega) (pushWindow hist b) y]
          cases h1 : lzTokens (pushWindow hist b) rest2 with
          | error e => rfl
          | ok p =>
            obtain ⟨o₁, l₁, h₁⟩ := p
            dsimp only
            cases h2 : lzTokens h₁ (l₁ ++ y) with
            | error e => rfl
            | ok q => obtain ⟨o₂, l₂, h₂⟩ := q; simp
      · by_cases hf1 : f = 1
        · subst hf1
          cases rest with
          | nil =>
            rw [show lzTokens hist [1] = .ok ([], [1], hist) from rfl]
            dsimp only
            cases h2 : lzTokens hist ([1] ++ y) with
            | error e => rfl
            | ok p => obtain ⟨o₂, l₂, h₂⟩ := p; simp
          | cons off rest1 =>
            cases rest1 with
            | nil =>
              rw [show lzTokens hist [1, off] = .ok ([], [1, off], hist) from rfl]
              dsimp only
              cases h2 : lzTokens hist ([1, off] ++ y) with
              | error e => rfl
              | ok p => obtain ⟨o₂, l₂, h₂⟩ := p; simp
            | cons len rest2 =>
              have e1 : lzTokens hist (1 :: off :: len :: rest2) =
                  (if off = 0 ∨ len = 0 then .error .corruptData
                   else if hist.length < off then .error .corruptData
                   else
                     match lzCopyAux hist (hist.length - off) 0 len with
                     | none => .error .historyIndex
                     | some (o, h) =>
                       match lzTokens h rest2 with
                       | .error e => .error e
                       | .ok (o₂, l, h₂) => .ok (o ++ o₂, l, h₂)) := by rfl
              have e2 : lzTokens hist (1 :: off :: len :: (rest2 ++ y)) =
                  (if off = 0 ∨ len = 0 then .error .corruptData
                   else if hist.length < off then .error .corruptData
                   else
                     match lzCopyAux hist (hist.length - off) 0 len with
                     | none => .error .historyIndex
                     | some (o, h) =>
                       match lzTokens h (rest2 ++ y) with
                       | .error e => .error e
                       | .ok (o₂, l, h₂) => .ok (o ++ o₂, l, h₂)) := by rfl
              rw [List.cons_append, List.cons_append, List.cons_append, e2, e1]
              by_cases hv : off = 0 ∨ len = 0
              · rw [if_pos hv, if_pos hv]
              · rw [if_neg hv, if_neg hv]
                by_cases hr : hist.length < off
                · rw [if_pos hr, if_pos hr]
                · rw [if_neg hr, if_neg hr]
                  cases hcp : lzCopyAux hist (hist.length - off) 0 len with
                  | none => rfl
                  | some p =>
                    obtain ⟨o₀, h₀⟩ := p
                    dsimp only
                    rw [ih rest2 (by simp at hx; omega) h₀ y]
                    cases h1 : lzTokens h₀ rest2 with
                    | error e => rfl
                    | ok p =>
                      obtain ⟨o₁, l₁, h₁⟩ := p
                      dsimp only
                      cases h2 : lzTokens h₁ (l₁ ++ y) with
                      | error e => rfl
                      | ok q =>
                        obtain ⟨o₂, l₂, h₂⟩ := q
                        simp [List.append_assoc]
        · obtain ⟨k, rfl⟩ : ∃ k, f = k + 2 := ⟨f - 2, by omega⟩
          rw [List.cons_append,
            show lzTokens hist ((k + 2) :: (rest ++ y)) = .error .unknownToken from rfl,
            show lzTokens hist ((k + 2) :: rest) = .error .unknownToken from rfl]

/-- The token loop composes across buffer boundaries. -/
theorem lzTokens_append (x hist y : List Nat) :
    lzTokens hist (x ++ y) =
      match lzTokens hist x with
      | .error e => .error e
      | .ok (o, l, h) =>
        match lzTokens h (l ++ y) with
        | .error e => .error e
        | .ok (o₂, l₂, h₂) => .ok (o ++ o₂, l₂, h₂) :=
  lzTokens_append_aux x.length x (Nat.le_refl _) hist y

/-- The leftover of the token loop is an incomplete token prefix (`[]`,
`[0]`, `[1]` or `[1, off]`): running the loop on it again, from any
history, consumes nothing. -/
theorem lzTokens_ok_leftover : ∀ (n : Nat) (x : List Nat), x.length ≤ n →
    ∀ (hist o l h : List Nat), lzTokens hist x = .ok (o, l, h) →
    ∀ (h' : List Nat), lzTokens h' l = .ok ([], l, h') := by
  intro n
  induction n with
  | zero =>
    intro x hx hist o l h hok h'
    have hxe : x = [] := List.length_eq_zero.mp (Nat.le_zero.mp hx)
    subst hxe
    rw [show lzTokens hist [] = .ok ([], [], hist) from rfl] at hok
    simp only [Except.ok.injEq, Prod.mk.injEq] at hok
    rw [← hok.2.1]
    rfl
  | succ n ih =>
    intro x hx hist o l h hok h'
    cases x with
    | nil =>
      rw [show lzTokens hist [] = .ok ([], [], hist) from rfl] at hok
      simp only [Except.ok.injEq, Prod.mk.injEq] at hok
      rw [← hok.2.1]
      rfl
    | cons f rest =>
      by_cases hf0 : f = 0
      · subst hf0
        cases rest with
        | nil =>
          rw [show lzTokens hist [0] = .ok ([], [0], hist) from rfl] at hok
          simp only [Except.ok.injEq, Prod.mk.injEq] at hok
          rw [← hok.2.1]
          rfl
        | cons b rest2 =>
          rw [show lzTokens hist (0 :: b :: rest2) =
              (match lzTokens (pushWindow hist b) rest2 with
               | .error e => .error e
               | .ok (o, l, h) => .ok (b :: o, l, h)) from by rfl] at hok
          cases h1 : lzTokens (pushWindow hist b) rest2 with
          | error e => rw [h1] at hok; exact absurd hok (by simp)
          | ok p =>
            obtain ⟨o₁, l₁, h₁⟩ := p
            rw [h1] at hok
            simp only [Except.ok.injEq, Prod.mk.injEq] at hok
            rw [← hok.2.1]
            exact ih rest2 (by simp at hx; omega) (pushWindow hist b) o₁ l₁ h₁ h1 h'
      · by_cases hf1 : f = 1
        · subst hf1
          cases rest with
          | nil =>
            rw [show lzTokens hist [1] = .ok ([], [1], hist) from rfl] at hok
            simp only [Except.ok.injEq, Prod.mk.injEq] at hok
            rw [← hok.2.1]
            rfl
          | cons off rest1 =>
            cases rest1 with
            | nil =>
              rw [show lzTokens hist [1, off] = .ok ([], [1, off], hist) from rfl] at hok
              simp only [Except.ok.injEq, Prod.mk.injEq] at hok
              rw [← hok.2.1]
              rfl
            | cons len rest2 =>
              rw [show lzTokens hist (1 :: off :: len :: rest2) =
                  (if off = 0 ∨ len = 0 then .error .corruptData
                   else if hist.length < off then .error .corruptData
                   else
                     match lzCopyAux hist (hist.length - off) 0 len with
                     | none => .error .historyIndex
                     | some (o, h) =>
                       match lzTokens h rest2 with
                       | .error e => .error e
                       | .ok (o₂, l, h₂) => .ok (o ++ o₂, l, h₂)) from by rfl] at hok
              by_cases hv : off = 0 ∨ len = 0
              · rw [if_pos hv] at hok; exact absurd hok (by simp)
              · rw [if_neg hv] at hok
                by_cases hr : hist.length < off
                · rw [if_pos hr] at hok; exact absurd hok (by simp)
                · rw [if_neg hr] at hok
                  cases hcp : lzCopyAux hist (hist.length - off) 0 len with
                  | none => rw [hcp] at hok; exact absurd hok (by simp)
                  | some p =>
                    obtain ⟨o₀, h₀⟩ := p
                    rw [hcp] at hok
                    dsimp only at hok
                    cases h1 : lzTokens h₀ rest2 with
                    | error e => rw [h1] at hok; exact absurd hok (by simp)
                    | ok q =>
                      obtain ⟨o₁, l₁, h₁⟩ := q
                      rw [h1] at hok
                      simp only [Except.ok.injEq, Prod.mk.injEq] at hok
                      rw [← hok.2.1]
                      exact ih rest2 (by simp at hx; omega) h₀ o₁ l₁ h₁ h1 h'
        · obtain ⟨k, rfl⟩ : ∃ k, f = k + 2 := ⟨f - 2, by omega⟩
          rw [show lzTokens hist ((k + 2) :: rest) = .error .unknownToken from rfl] at hok
          exact absurd hok (by simp)

/-- Invariant of reachable `LZDecompressTransform` states: the buffer is
empty before the magic byte is seen, and the buffered leftover contains no
complete token. -/
def LZQuiescent (s : LZDecState) : Prop :=
  (s.checkedMagic = false → s.buf = []) ∧
    lzTokens s.hist s.buf = .ok ([], s.buf, s.hist)

theorem lzDecInit_quiescent : LZQuiescent lzDecInit :=
  ⟨fun _ => rfl, rfl⟩

theorem lzDecFeed_checked (b hist : List Nat) (c : List Nat) :
    lzDecFeed ⟨true, b, hist⟩ c =
      match lzTokens hist (b ++ c) with
      | .error e => .error e
      | .ok (o, l, h) => .ok (⟨true, l, h⟩, o) := rfl

theorem lzDecFeed_unchecked (hist : List Nat) (c : List Nat) :
    lzDecFeed ⟨false, [], hist⟩ c =
      match c with
      | [] => .ok (⟨false, [], hist⟩, [])
      | m :: rest =>
        if m = 0x4C then
          match lzTokens hist rest with
          | .error e => .error e
          | .ok (o, l, h) => .ok (⟨true, l, h⟩, o)
        else .error .formatError := rfl

theorem lzDecFeed_quiescent (s : LZDecState) (c : List Nat) (s' : LZDecState)
    (o : List Nat) (h : lzDecFeed s c = .ok (s', o)) : LZQuiescent s' := by
  obtain ⟨cm, sbuf, shist⟩ := s
  cases cm with
  | true =>
    rw [lzDecFeed_checked] at h
    cases hp : lzTokens shist (sbuf ++ c) with
    | error e => rw [hp] at h; exact absurd h (by simp)
    | ok p =>
      obtain ⟨o₁, l, h₁⟩ := p
      rw [hp] at h
      simp only [Except.ok.injEq, Prod.mk.injEq] at h
      rw [← h.1]
      exact ⟨fun hf => by simp at hf,
        lzTokens_ok_leftover (sbuf ++ c).length (sbuf ++ c) (Nat.le_refl _)
          shist o₁ l h₁ hp h₁⟩
  | false =>
    by_cases hb : sbuf = []
    · subst hb
      rw [lzDecFeed_unchecked] at h
      cases c with
      | nil =>
        dsimp only at h
        simp only [Except.ok.injEq, Prod.mk.injEq] at h
        rw [← h.1]
        exact ⟨fun _ => rfl, rfl⟩
      | cons m rest =>
        dsimp only at h
        by_cases hmg : m = 0x4C
        · rw [if_pos hmg] at h
          cases hp : lzTokens shist rest with
          | error e => rw [hp] at h; exact absurd h (by simp)
          | ok p =>
            obtain ⟨o₁, l, h₁⟩ := p
            rw [hp] at h
            simp only [Except.ok.injEq, Prod.mk.injEq] at h
            rw [← h.1]
            exact ⟨fun hf => by simp at hf,
              lzTokens_ok_leftover rest.length rest (Nat.le_refl _)
                shist o₁ l h₁ hp h₁⟩
        · rw [if_neg hmg] at h
          exact absurd h (by simp)
    · -- unreachable for the states this lemma is applied to, but the
      -- feed function checks the magic byte against the combined buffer
      unfold lzDecFeed at h
      dsimp only at h
      rw [if_neg (by simp : ¬(false = true))] at h
      cases hbc : sbuf ++ c with
      | nil =>
        rw [hbc] at h
        dsimp only at h
        simp only [Except.ok.injEq, Prod.mk.injEq] at h
        rw [← h.1]
        exact ⟨fun _ => rfl, rfl⟩
      | cons m rest =>
        rw [hbc] at h
        dsimp only at h
        by_cases hmg : m = 0x4C
        · rw [if_pos hmg] at h
          cases hp : lzTokens shist rest with
          | error e => rw [hp] at h; exact absurd h (by simp)
          | ok p =>
            obtain ⟨o₁, l, h₁⟩ := p
            rw [hp] at h
            simp only [Except.ok.injEq, Prod.mk.injEq] at h
            rw [← h.1]
            exact ⟨fun hf => by simp at hf,
              lzTokens_ok_leftover rest.length rest (Nat.le_refl _)
                shist o₁ l h₁ hp h₁⟩
        · rw [if_neg hmg] at h
          exact absurd h (by simp)

/-- `_transform` composes across chunk boundaries for the LZ decoder. -/
theorem lzDecFeed_append (s : LZDecState) (hq : s.checkedMagic = false → s.buf = [])
    (c₁ c₂ : List Nat) :
    lzDecFeed s (c₁ ++ c₂) =
      match lzDecFeed s c₁ with
      | .error e => .error e
      | .ok (s₁, o₁) =>
        match lzDecFeed s₁ c₂ with
        | .error e => .error e
        | .ok (s₂, o₂) => .ok (s₂, o₁ ++ o₂) := by
  obtain ⟨cm, sbuf, shist⟩ := s
  cases cm with
  | true =>
    rw [lzDecFeed_checked, lzDecFeed_checked, ← List.append_assoc,
      lzTokens_append (sbuf ++ c₁) shist c₂]
    cases h1 : lzTokens shist (sbuf ++ c₁) with
    | error e => rfl
    | ok p =>
      obtain ⟨o₁, l₁, h₁⟩ := p
      dsimp only
      rw [lzDecFeed_checked]
      cases h2 : lzTokens h₁ (l₁ ++ c₂) with
      | error e => rfl
      | ok q => obtain ⟨o₂, l₂, h₂⟩ := q; simp
  | false =>
    have hb : sbuf = [] := hq rfl
    subst hb
    cases c₁ with
    | nil =>
      rw [List.nil_append]
      conv_rhs => rw [lzDecFeed_unchecked]
      dsimp only
      cases h2 : lzDecFeed ⟨false, [], shist⟩ c₂ with
      | error e => rfl
      | ok p => obtain ⟨s₂, o₂⟩ := p; simp
    | cons m rest =>
      rw [List.cons_append, lzDecFeed_unchecked, lzDecFeed_unchecked]
      dsimp only
      by_cases hmg : m = 0x4C
      · rw [if_pos hmg, if_pos hmg, lzTokens_append rest shist c₂]
        cases h1 : lzTokens shist rest with
        | error e => rfl
        | ok p =>
          obtain ⟨o₁, l₁, h₁⟩ := p
          dsimp only
          rw [lzDecFeed_checked]
          cases h2 : lzTokens h₁ (l₁ ++ c₂) with
          | error e => rfl
          | ok q => obtain ⟨o₂, l₂, h₂⟩ := q; simp
      · rw [if_neg hmg, if_neg hmg]

/-- Feeding the LZ decoder a sequence of chunks equals feeding their
concatenation. -/
theorem lzDecFeedAll_join : (chunks : List (List Nat)) → ∀ (s : LZDecState),
    LZQuiescent s → lzDecFeedAll s chunks = lzDecFeed s chunks.flatten
  | [], s, hq => by
    obtain ⟨cm, sbuf, shist⟩ := s
    cases cm with
    | true =>
      show Except.ok _ = _
      rw [List.flatten_nil, lzDecFeed_checked, List.append_nil, hq.2]
    | false =>
      have hb : sbuf = [] := hq.1 rfl
      subst hb
      rw [List.flatten_nil, lzDecFeed_unchecked]
      rfl
  | c :: cs, s, hq => by
    rw [List.flatten_cons, lzDecFeed_append s hq.1 c cs.flatten]
    dsimp only [lzDecFeedAll]
    cases h1 : lzDecFeed s c with
    | error e => rfl
    | ok p =>
      obtain ⟨s₁, o₁⟩ := p
      dsimp only
      rw [← lzDecFeedAll_join cs s₁ (lzDecFeed_quiescent s c s₁ o₁ h1)]

/-- Decoding a chunk sequence equals decoding the concatenated stream. -/
theorem lzDecodeChunks_flatten (chunks : List (List Nat)) :
    lzDecodeChunks chunks = lzDecodeChunks [chunks.flatten] := by
  unfold lzDecodeChunks
  rw [lzDecFeedAll_join chunks lzDecInit lzDecInit_quiescent]
  dsimp only [lzDecFeedAll]
  cases h : lzDecFeed lzDecInit chunks.flatten with
  | error e => rfl
  | ok p => obtain ⟨s1, o⟩ := p; simp

/-! ## Helper lemmas: LZ match search -/

/-- The common prefix length never exceeds the first list's length. -/
theorem commonLen_le_left : (a b : List Nat) → commonLen a b ≤ a.length
  | [], _ => by simp [commonLen]
  | _ :: _, [] => by simp [commonLen]
  | a :: as, b :: bs => by
    by_cases hab : a = b
    · simp only [commonLen, if_pos hab, List.length_cons]
      exact Nat.succ_le_succ (commonLen_le_left as bs)
    · simp [commonLen, hab]

theorem bestStep_apply (search look : List Nat) (b : Nat × Nat) (i : Nat) :
    bestStep search look b i =
      if b.2 ≤ commonLen (List.drop i search) look
      then (search.length - i, commonLen (List.drop i search) look) else b := rfl

/-- Characterization of the partial scan over `i = 0 … n-1`: the running
best length is the maximum of the common-prefix lengths seen so far, and
the recorded offset corresponds to the *last* index attaining it (every
later index has a strictly smaller length). -/
theorem bestMatchScan_steps (search look : List Nat) : ∀ (n : Nat), 0 < n →
    (∀ i, i < n → commonLen (List.drop i search) look ≤
      ((List.range n).foldl (bestStep search look) (0, 0)).2) ∧
    (∃ i, i < n ∧ commonLen (List.drop i search) look =
        ((List.range n).foldl (bestStep search look) (0, 0)).2 ∧
      ((List.range n).foldl (bestStep search look) (0, 0)).1 = search.length - i ∧
      ∀ j, i < j → j < n → commonLen (List.drop j search) look <
        ((List.range n).foldl (bestStep search look) (0, 0)).2) := by
  intro n
  induction n with
  | zero => intro h; exact absurd h (by omega)
  | succ n ih =>
    intro _
    rw [List.range_succ, List.foldl_append, List.foldl_cons, List.foldl_nil]
    rcases Nat.eq_zero_or_pos n with hn0 | hnpos
    · subst hn0
      simp only [List.range_zero, List.foldl_nil]
      rw [bestStep_apply, if_pos (Nat.zero_le _)]
      refine ⟨fun i hi => ?_, 0, by omega, rfl, by simp, fun j hj1 hj2 => by omega⟩
      have hi0 : i = 0 := by omega
      subst hi0
      exact Nat.le_refl _
    · obtain ⟨hmax, i₀, hi₀n, hi₀eq, hi₀off, hi₀later⟩ := ih hnpos
      rw [bestStep_apply]
      by_cases hcase :
          ((List.range n).foldl (bestStep search look) (0, 0)).2 ≤
            commonLen (List.drop n search) look
      · rw [if_pos hcase]
        constructor
        · intro i hi
          rcases Nat.lt_succ_iff_lt_or_eq.mp hi with hi' | hieq
          · exact le_trans (hmax i hi') hcase
          · subst hieq; exact Nat.le_refl _
        · exact ⟨n, Nat.lt_succ_self n, rfl, rfl, fun j hj1 hj2 => by omega⟩
      · rw [if_neg hcase]
        push_neg at hcase
        constructor
        · intro i hi
          rcases Nat.lt_succ_iff_lt_or_eq.mp hi with hi' | hieq
          · exact hmax i hi'
          · subst hieq; exact Nat.le_of_lt hcase
        · refine ⟨i₀, Nat.lt_succ_of_lt hi₀n, hi₀eq, hi₀off, fun j hj1 hj2 => ?_⟩
          rcases Nat.lt_succ_iff_lt_or_eq.mp hj2 with h' | h'
          · exact hi₀later j hj1 h'
          · subst h'; exact hcase

/-- Any accepted match satisfies `1 ≤ offset ≤ searchLen` and
`length ≤ offset` (the prefix comparison never runs past the end of the
search buffer). -/
theorem findBestMatch_bounds (search look : List Nat) (off len : Nat)
    (h : findBestMatch search look = (off, len)) (h3 : 3 ≤ len) :
    1 ≤ off ∧ off ≤ search.length ∧ len ≤ off := by
  unfold findBestMatch at h
  by_cases h0 : search.length = 0 ∨ look.length < 3
  · rw [if_pos h0] at h
    have : len = 0 := by
      have := congrArg Prod.snd h
      simpa using this.symm
    omega
  · rw [if_neg h0] at h
    by_cases hacc : 3 ≤ (bestMatchScan search look).2 ∧ (bestMatchScan search look).1 ≤ 255
    · rw [if_pos hacc] at h
      have hL : 0 < search.length := by
        push_neg at h0
        omega
      obtain ⟨hmax, i₀, hi₀n, hi₀eq, hi₀off, hi₀later⟩ :=
        bestMatchScan_steps search look search.length hL
      have hoff : off = (bestMatchScan search look).1 := by
        have := congrArg Prod.fst h
        simpa using this.symm
      have hlen : len = (bestMatchScan search look).2 := by
        have := congrArg Prod.snd h
        simpa using this.symm
      have hscan : bestMatchScan search look =
          (List.range search.length).foldl (bestStep search look) (0, 0) := rfl
      rw [hscan] at hoff hlen
      have hlenle : len ≤ search.length - i₀ := by
        rw [hlen, ← hi₀eq]
        calc commonLen (List.drop i₀ search) look ≤ (List.drop i₀ search).length :=
              commonLen_le_left _ _
          _ = search.length - i₀ := List.length_drop i₀ search
      refine ⟨by omega, by omega, by omega⟩
    · rw [if_neg hacc] at h
      have : len = 0 := by
        have := congrArg Prod.snd h
        simpa using this.symm
      omega

/-! ## Helper lemmas: window invariant -/

theorem pushWindow_length_le (w : List Nat) (b : Nat) (h : w.length ≤ 20) :
    (pushWindow w b).length ≤ 20 := by
  unfold pushWindow
  by_cases h21 : 20 < (w ++ [b]).length
  · rw [if_pos h21]
    simp at h21 ⊢
    omega
  · rw [if_neg h21]
    simp at h21 ⊢
    omega

theorem pushMany_length_le (bs : List Nat) : ∀ (w : List Nat), w.length ≤ 20 →
    (pushMany w bs).length ≤ 20 := by
  induction bs with
  | nil => intro w h; exact h
  | cons b bs ih =>
    intro w h
    exact ih (pushWindow w b) (pushWindow_length_le w b h)

theorem lzCopyAux_hist_le : ∀ (rem : Nat) (hist : List Nat) (start i : Nat)
    (o h : List Nat), hist.length ≤ 20 →
    lzCopyAux hist start i rem = some (o, h) → h.length ≤ 20 := by
  intro rem
  induction rem with
  | zero =>
    intro hist start i o h hle hcp
    simp only [lzCopyAux, Option.some.injEq, Prod.mk.injEq] at hcp
    rw [← hcp.2]
    exact hle
  | succ rem ih =>
    intro hist start i o h hle hcp
    simp only [lzCopyAux] at hcp
    cases hg : hist.get? (start + i) with
    | none => rw [hg] at hcp; exact absurd hcp (by simp)
    | some b =>
      rw [hg] at hcp
      dsimp only at hcp
      cases hrec : lzCopyAux (pushWindow hist b) start (i + 1) rem with
      | none => rw [hrec] at hcp; exact absurd hcp (by simp)
      | some p =>
        obtain ⟨o₁, h₁⟩ := p
        rw [hrec] at hcp
        simp only [Option.some.injEq, Prod.mk.injEq] at hcp
        rw [← hcp.2]
        exact ih (pushWindow hist b) start (i + 1) o₁ h₁
          (pushWindow_length_le hist b hle) hrec

/-- The decoder's token loop keeps the history within the window bound. -/
theorem lzTokens_hist_le : ∀ (n : Nat) (x : List Nat), x.length ≤ n →
    ∀ (hist o l h : List Nat), hist.length ≤ 20 →
    lzTokens hist x = .ok (o, l, h) → h.length ≤ 20 := by
  intro n
  induction n with
  | zero =>
    intro x hx hist o l h hle hok
    have hxe : x = [] := List.length_eq_zero.mp (Nat.le_zero.mp hx)
    subst hxe
    rw [show lzTokens hist [] = .ok ([], [], hist) from rfl] at hok
    simp only [Except.ok.injEq, Prod.mk.injEq] at hok
    rw [← hok.2.2]
    exact hle
  | succ n ih =>
    intro x hx hist o l h hle hok
    cases x with
    | nil =>
      rw [show lzTokens hist [] = .ok ([], [], hist) from rfl] at hok
      simp only [Except.ok.injEq, Prod.mk.injEq] at hok
      rw [← hok.2.2]
      exact hle
    | cons f rest =>
      by_cases hf0 : f = 0
      · subst hf0
        cases rest with
        | nil =>
          rw [show lzTokens hist [0] = .ok ([], [0], hist) from rfl] at hok
          simp only [Except.ok.injEq, Prod.mk.injEq] at hok
          rw [← hok.2.2]
          exact hle
        | cons b rest2 =>
          rw [show lzTokens hist (0 :: b :: rest2) =
              (match lzTokens (pushWindow hist b) rest2 with
               | .error e => .error e
               | .ok (o, l, h) => .ok (b :: o, l, h)) from by rfl] at hok
          cases h1 : lzTokens (pushWindow hist b) rest2 with
          | error e => rw [h1] at hok; exact absurd hok (by simp)
          | ok p =>
            obtain ⟨o₁, l₁, h₁⟩ := p
            rw [h1] at hok
            simp only [Except.ok.injEq, Prod.mk.injEq] at hok
            rw [← hok.2.2]
            exact ih rest2 (by simp at hx; omega) (pushWindow hist b) o₁ l₁ h₁
              (pushWindow_length_le hist b hle) h1
      · by_cases hf1 : f = 1
        · subst hf1
          cases rest with
          | nil =>
            rw [show lzTokens hist [1] = .ok ([], [1], hist) from rfl] at hok
            simp only [Except.ok.injEq, Prod.mk.injEq] at hok
            rw [← hok.2.2]
            exact hle
          | cons off rest1 =>
            cases rest1 with
            | nil =>
              rw [show lzTokens hist [1, off] = .ok ([], [1, off], hist) from rfl] at hok
              simp only [Except.ok.injEq, Prod.mk.injEq] at hok
              rw [← hok.2.2]
              exact hle
            | cons len rest2 =>
              rw [show lzTokens hist (1 :: off :: len :: rest2) =
                  (if off = 0 ∨ len = 0 then .error .corruptData
                   else if hist.length < off then .error .corruptData
                   else
                     match lzCopyAux hist (hist.length - off) 0 len with
                     | none => .error .historyIndex
                     | some (o, h) =>
                       match lzTokens h rest2 with
                       | .error e => .error e
                       | .ok (o₂, l, h₂) => .ok (o ++ o₂, l, h₂)) from by rfl] at hok
              by_cases hv : off = 0 ∨ len = 0
              · rw [if_pos hv] at hok; exact absurd hok (by simp)
              · rw [if_neg hv] at hok
                by_cases hr : hist.length < off
                · rw [if_pos hr] at hok; exact absurd hok (by simp)
                · rw [if_neg hr] at hok
                  cases hcp : lzCopyAux hist (hist.length - off) 0 len with
                  | none => rw [hcp] at hok; exact absurd hok (by simp)
                  | some p =>
                    obtain ⟨o₀, h₀⟩ := p
                    rw [hcp] at hok
                    dsimp only at hok
                    cases h1 : lzTokens h₀ rest2 with
                    | error e => rw [h1] at hok; exact absurd hok (by simp)
                    | ok q =>
                      obtain ⟨o₁, l₁, h₁⟩ := q
                      rw [h1] at hok
                      simp only [Except.ok.injEq, Prod.mk.injEq] at hok
                      rw [← hok.2.2]
                      exact ih rest2 (by simp at hx; omega) h₀ o₁ l₁ h₁
                        (lzCopyAux_hist_le len hist (hist.length - off) 0 o₀ h₀ hle hcp) h1
        · obtain ⟨k, rfl⟩ : ∃ k, f = k + 2 := ⟨f - 2, by omega⟩
          rw [show lzTokens hist ((k + 2) :: rest) = .error .unknownToken from rfl] at hok
          exact absurd hok (by simp)

theorem lzEncLoopF_succ (fuel : Nat) (search look input : List Nat) :
    lzEncLoopF (fuel + 1) search look input =
      match look ++ input.take (min (255 - look.length) input.length) with
      | [] => ([], search)
      | b :: rest =>
        if 3 ≤ (findBestMatch search (b :: rest)).2 then
          (1 :: (findBestMatch search (b :: rest)).1 ::
              (findBestMatch search (b :: rest)).2 ::
              (lzEncLoopF fuel
                (pushMany search ((b :: rest).take (findBestMatch search (b :: rest)).2))
                ((b :: rest).drop (findBestMatch search (b :: rest)).2)
                (input.drop (min (255 - look.length) input.length))).1,
            (lzEncLoopF fuel
              (pushMany search ((b :: rest).take (findBestMatch search (b :: rest)).2))
              ((b :: rest).drop (findBestMatch search (b :: rest)).2)
              (input.drop (min (255 - look.length) input.length))).2)
        else
          (0 :: b :: (lzEncLoopF fuel (pushWindow search b) rest
              (input.drop (min (255 - look.length) input.length))).1,
            (lzEncLoopF fuel (pushWindow search b) rest
              (input.drop (min (255 - look.length) input.length))).2) := by
  rfl

/-- The encoder's main loop keeps the search buffer within the window
bound. -/
theorem lzEncLoopF_search_le : ∀ (fuel : Nat) (search look input : List Nat),
    search.length ≤ 20 → (lzEncLoopF fuel search look input).2.length ≤ 20 := by
  intro fuel
  induction fuel with
  | zero => intro search look input h; exact h
  | succ fuel ih =>
    intro search look input h
    rw [lzEncLoopF_succ]
    cases hlk : look ++ input.take (min (255 - look.length) input.length) with
    | nil => exact h
    | cons b rest =>
      dsimp only
      by_cases h3 : 3 ≤ (findBestMatch search (b :: rest)).2
      · rw [if_pos h3]
        exact ih _ _ _ (pushMany_length_le _ search h)
      · rw [if_neg h3]
        exact ih _ _ _ (pushWindow_length_le search b h)

/-- Every token stream the encoder's loop emits is well formed: literal and
match tokens only, each match with `1 ≤ offset ≤ 20`, `3 ≤ length ≤ offset`. -/
theorem lzEncLoopF_tokenSeq : ∀ (fuel : Nat) (search look input : List Nat),
    search.length ≤ 20 → TokenSeq (lzEncLoopF fuel search look input).1 := by
  intro fuel
  induction fuel with
  | zero => intro search look input _; exact TokenSeq.nil
  | succ fuel ih =>
    intro search look input h
    rw [lzEncLoopF_succ]
    cases hlk : look ++ input.take (min (255 - look.length) input.length) with
    | nil => exact TokenSeq.nil
    | cons b rest =>
      dsimp only
      by_cases h3 : 3 ≤ (findBestMatch search (b :: rest)).2
      · rw [if_pos h3]
        obtain ⟨hb1, hb2, hb3⟩ :=
          findBestMatch_bounds search (b :: rest)
            (findBestMatch search (b :: rest)).1
            (findBestMatch search (b :: rest)).2 rfl h3
        exact TokenSeq.mtch _ _ hb1 (le_trans hb2 h) h3 hb3
          (ih _ _ _ (pushMany_length_le _ search h))
      · rw [if_neg h3]
        exact TokenSeq.lit b (ih _ _ _ (pushWindow_length_le search b h))

/-- As long as the history stays within the window capacity during the
copy (`hist.length + rem ≤ 20`, so no eviction occurs), the decoder's copy
loop agrees with the standard sliding-window overlap-copy semantics. -/
theorem lzCopyAux_overlap : ∀ (rem : Nat) (hist : List Nat) (start i : Nat),
    start + i < hist.length → hist.length + rem ≤ 20 →
    lzCopyAux hist start i rem =
      some (overlapCopy hist (start + i) rem,
            hist ++ overlapCopy hist (start + i) rem) := by
  intro rem
  induction rem with
  | zero =>
    intro hist start i hlt hle
    simp [lzCopyAux, overlapCopy]
  | succ rem ih =>
    intro hist start i hlt hle
    obtain ⟨b, hb⟩ : ∃ b, hist.get? (start + i) = some b := by
      rw [List.get?_eq_getElem?]
      exact ⟨hist[start + i], List.getElem?_eq_getElem hlt⟩
    have hpush : pushWindow hist b = hist ++ [b] := by
      unfold pushWindow
      rw [if_neg (by simp; omega)]
    have hrec := ih (hist ++ [b]) start (i + 1)
      (by simp; omega) (by simp; omega)
    show (match hist.get? (start + i) with
      | none => none
      | some b =>
        match lzCopyAux (pushWindow hist b) start (i + 1) rem with
        | none => none
        | some (o, h) => some (b :: o, h)) = _
    rw [hb]
    dsimp only
    rw [hpush, hrec]
    dsimp only
    rw [show overlapCopy hist (start + i) (rem + 1) =
        b :: overlapCopy (hist ++ [b]) (start + i + 1) rem from by
      show (match hist.get? (start + i) with
        | none => []
        | some b => b :: overlapCopy (hist ++ [b]) (start + i + 1) rem) = _
      rw [hb]]
    simp [Nat.add_assoc]

/-- Well-formed token streams are closed under concatenation. -/
theorem TokenSeq_append : ∀ {a b : List Nat}, TokenSeq a → TokenSeq b → TokenSeq (a ++ b) := by
  intro a b ha hb
  induction ha with
  | nil => exact hb
  | lit c hrest ih => exact TokenSeq.lit c ih
  | mtch off len h1 h2 h3 h4 hrest ih => exact TokenSeq.mtch off len h1 h2 h3 h4 ih

/-- The whole chunked encoder run emits a well-formed token stream. -/
theorem lzEncFeedAll_tokenSeq : ∀ (chunks : List (List Nat)) (search : List Nat),
    search.length ≤ 20 → TokenSeq (lzEncFeedAll search chunks).1 := by
  intro chunks
  induction chunks with
  | nil => intro search _; exact TokenSeq.nil
  | cons c cs ih =>
    intro search h
    exact TokenSeq_append (lzEncLoopF_tokenSeq c.length search [] c h)
      (ih (lzFeed search c).2 (lzEncLoopF_search_le c.length search [] c h))

/-! ## Claim theorems -/

set_option maxRecDepth 10000 in
/-- C1: The claim asserts `decode(encode(S)) = S` for every byte sequence
and both codecs.  The LZ77 codec violates it: for
`S = [0…19, 15, 16, 17, 18, 19]` the encoder emits twenty literals and the
match `(offset 5, length 5)`; decoding that match starts with a full
20-byte history, so each appended byte evicts the oldest one and shifts
the indices under the fixed `startIndex`, and the decoder reproduces
`[…, 15, 17, 19, 17, 17]` instead of `[…, 15, 16, 17, 18, 19]`. -/
theorem lz_roundtrip_divergence :
    lzDecompress (lzCompress (List.range 20 ++ [15, 16, 17, 18, 19])) =
      Except.ok (List.range 20 ++ [15, 17, 19, 17, 17]) ∧
    (List.range 20 ++ [15, 17, 19, 17, 17] : List Nat) ≠
      List.range 20 ++ [15, 16, 17, 18, 19] := by
  constructor
  · decide
  · decide

/-- C3: The claim asserts that decoding `[0x52, 0x41]` (magic plus a value
byte with no count) fails with a truncation error.  The code instead
accepts it: `_flush`'s "only the magic byte" guard fires whenever exactly
one byte is buffered and no pair was ever decoded, so the stream is
accepted with empty output.  With at least one decoded pair, a leftover
byte does fail as the claim says. -/
theorem rle_truncated_pair_accepted :
    rleDecodeChunks [[0x52, 0x41]] = Except.ok [] ∧
    rleDecodeChunks [[0x52, 0x41, 0x01, 0x41]] = Except.error RLEError.truncated := by
  constructor
  · decide
  · decide

/-- C4: A complete `[value, count]` pair with `count = 0` makes the RLE
decoder fail with the corrupt-data error and halt — concretely on
`[0x52, 0x41, 0x00]` — every error the pair loop reports is that error,
and a pair with any nonzero count is always consumed normally. -/
theorem rle_zero_count_rejected :
    rleDecodeChunks [[0x52, 0x41, 0x00]] = Except.error RLEError.corruptData ∧
    (∀ (x : List Nat) (e : RLEError), rlePairs x = .error e → e = .corruptData) ∧
    (∀ (v c : Nat) (rest out left : List Nat), rlePairs rest = .ok (out, left) →
      (c = 0 → rlePairs (v :: c :: rest) = .error .corruptData) ∧
      (c ≠ 0 → rlePairs (v :: c :: rest) =
        .ok (List.replicate c v ++ out, left))) := by
  refine ⟨by decide, fun x e h => rlePairs_error_kind x e h, ?_⟩
  intro v c rest out left hrest
  constructor
  · intro hc
    simp [rlePairs, hc]
  · intro hc
    simp [rlePairs, hc, hrest]

/-- C4 witness: the characterization applied at the pair `(0x41, 2)` with
empty remainder. -/
theorem rle_zero_count_rejected_witness :
    rlePairs ([] : List Nat) = .ok ([], []) ∧
    ((2 : Nat) = 0 → rlePairs [0x41, 2] = .error .corruptData) ∧
    ((2 : Nat) ≠ 0 → rlePairs [0x41, 2] =
      .ok (List.replicate 2 0x41 ++ [], [])) :=
  ⟨by decide, rle_zero_count_rejected.2.2 0x41 2 [] [] [] (by decide)⟩

set_option maxRecDepth 10000 in
/-- C5: RLE-encoding 300 repeats of `0x41` yields the magic byte followed
by exactly the pairs `(0x41, 255)` and `(0x41, 45)`; in general, when the
open run has reached count 255, one more byte of the same value closes the
run and opens a fresh one. -/
theorem rle_saturation_300 :
    rleCompress (List.replicate 300 0x41) = [0x52, 0x41, 255, 0x41, 45] ∧
    ∀ v : Nat, rleEncStep (some (v, 255)) v = (some (v, 1), [v, 255]) := by
  constructor
  · decide
  · intro v
    simp [rleEncStep]

/-- C9: A completely empty stream (finish with zero input bytes, no magic
byte ever seen) is accepted by both decoders with empty output. -/
theorem decoder_empty_stream_ok :
    rleDecodeChunks [] = Except.ok [] ∧
    rleDecodeChunks [[]] = Except.ok [] ∧
    lzDecodeChunks [] = Except.ok [] ∧
    lzDecodeChunks [[]] = Except.ok [] := by
  refine ⟨by decide, by decide, by decide, by decide⟩

/-- C2 (amended): feeding a compressed stream to either decoder in any
chunk partition yields the same result as feeding it whole, and for the
RLE codec the encode-then-decode result equals the input for every
partition of the input into encoder feed calls.  (For LZ77 the
encode-then-decode clause fails; see the counterexample.) -/
theorem chunk_boundary_invariance :
    (∀ chunks : List (List Nat),
      rleDecodeChunks chunks = rleDecodeChunks [chunks.flatten]) ∧
    (∀ chunks : List (List Nat),
      lzDecodeChunks chunks = lzDecodeChunks [chunks.flatten]) ∧
    (∀ chunks : List (List Nat), (∀ b ∈ chunks.flatten, b < 256) →
      rleDecodeChunks [rleCompressChunks chunks] = Except.ok chunks.flatten) :=
  ⟨rleDecodeChunks_flatten, lzDecodeChunks_flatten,
    fun chunks _ => rleCompressChunks_decode chunks⟩

/-- C2 witness: the RLE encode-then-decode clause at the partition
`[[5, 5, 5], [7]]`. -/
theorem chunk_boundary_invariance_witness :
    (∀ b ∈ ([[5, 5, 5], [7]] : List (List Nat)).flatten, b < 256) ∧
    rleDecodeChunks [rleCompressChunks [[5, 5, 5], [7]]] =
      Except.ok ([[5, 5, 5], [7]] : List (List Nat)).flatten :=
  ⟨by decide, chunk_boundary_invariance.2.2 [[5, 5, 5], [7]] (by decide)⟩

set_option maxRecDepth 10000 in
/-- C2 counterexample: LZ77-encoding `S = [0…19, 15, 16, 17, 18, 19]` fed
as the two chunks `[0…19, 15]` and `[16, 17, 18, 19]` and then decoding
does not reproduce `S` (the decoded match misreads the history once the
window evicts during the copy). -/
theorem lz_chunked_roundtrip_cex :
    lzDecompress (lzCompressChunks [List.range 20 ++ [15], [16, 17, 18, 19]]) ≠
      Except.ok (List.range 20 ++ [15, 16, 17, 18, 19]) := by decide

/-- C6: In the encoder's match scan, the accumulated best length is the
maximum common-prefix length over all window positions, the recorded best
corresponds to the *last* position attaining that maximum (`>=` replaces
on ties), and consequently the recorded offset `searchLen - i` is the
smallest among all maximal positions. -/
theorem lz_tiebreak_latest_index (search look : List Nat) (h : 0 < search.length) :
    (∀ i, i < search.length →
      commonLen (List.drop i search) look ≤ (bestMatchScan search look).2) ∧
    (∃ i, i < search.length ∧
      commonLen (List.drop i search) look = (bestMatchScan search look).2 ∧
      (bestMatchScan search look).1 = search.length - i ∧
      ∀ j, i < j → j < search.length →
        commonLen (List.drop j search) look < (bestMatchScan search look).2) ∧
    (∀ i, i < search.length →
      commonLen (List.drop i search) look = (bestMatchScan search look).2 →
      (bestMatchScan search look).1 ≤ search.length - i) := by
  have hs : bestMatchScan search look =
      (List.range search.length).foldl (bestStep search look) (0, 0) := rfl
  obtain ⟨hmax, i₀, hi₀n, hi₀eq, hi₀off, hi₀later⟩ :=
    bestMatchScan_steps search look search.length h
  rw [hs]
  refine ⟨hmax, ⟨i₀, hi₀n, hi₀eq, hi₀off, hi₀later⟩, ?_⟩
  intro i hi hieq
  by_cases hii : i ≤ i₀
  · rw [hi₀off]
    omega
  · exfalso
    have := hi₀later i (by omega) hi
    omega

/-- C6 witness: the scan characterization at `search = [9, 7, 9]`,
`look = [9, 9, 9]` (positions 0 and 2 both attain length 1; position 2 is
kept, giving offset 1). -/
theorem lz_tiebreak_latest_index_witness :
    0 < ([9, 7, 9] : List Nat).length ∧
    ((∀ i, i < ([9, 7, 9] : List Nat).length →
      commonLen (List.drop i [9, 7, 9]) [9, 9, 9] ≤ (bestMatchScan [9, 7, 9] [9, 9, 9]).2) ∧
    (∃ i, i < ([9, 7, 9] : List Nat).length ∧
      commonLen (List.drop i [9, 7, 9]) [9, 9, 9] = (bestMatchScan [9, 7, 9] [9, 9, 9]).2 ∧
      (bestMatchScan [9, 7, 9] [9, 9, 9]).1 = ([9, 7, 9] : List Nat).length - i ∧
      ∀ j, i < j → j < ([9, 7, 9] : List Nat).length →
        commonLen (List.drop j [9, 7, 9]) [9, 9, 9] < (bestMatchScan [9, 7, 9] [9, 9, 9]).2) ∧
    (∀ i, i < ([9, 7, 9] : List Nat).length →
      commonLen (List.drop i [9, 7, 9]) [9, 9, 9] = (bestMatchScan [9, 7, 9] [9, 9, 9]).2 →
      (bestMatchScan [9, 7, 9] [9, 9, 9]).1 ≤ ([9, 7, 9] : List Nat).length - i)) :=
  ⟨by decide, lz_tiebreak_latest_index [9, 7, 9] [9, 9, 9] (by decide)⟩

set_option maxRecDepth 10000 in
/-- C7 counterexample: a self-overlapping match (`offset 2 < length 5`,
valid per the wire format, with a full 20-byte history) makes the decoder
fail with its "Invalid history index" error instead of producing the
standard sliding-window result `[18, 19, 18, 19, 18]`: the copy reads at
`startIndex + i` while eviction shifts the array under it. -/
theorem lz_selfoverlap_eviction_cex :
    lzDecodeChunks [0x4C :: ((List.range 20).flatMap (fun b => [0, b]) ++ [1, 2, 5])] =
      Except.error LZError.historyIndex ∧
    overlapCopy (List.range 20) 18 5 = [18, 19, 18, 19, 18] := by
  constructor
  · decide
  · decide

/-- C7 (amended): the decoder's match copy emits and appends one byte at a
time, and as long as the history does not overflow the window during the
copy (`hist.length + length ≤ 20`, so no eviction occurs) it implements
the standard self-overlapping sliding-window copy; in particular encoding
then decoding ten repeats of `'a'` reproduces all 10 bytes. -/
theorem lz_selfoverlap_copy :
    (∀ (hist : List Nat) (off len : Nat), 1 ≤ off → off ≤ hist.length →
      hist.length + len ≤ 20 →
      lzCopyAux hist (hist.length - off) 0 len =
        some (overlapCopy hist (hist.length - off) len,
              hist ++ overlapCopy hist (hist.length - off) len)) ∧
    lzDecompress (lzCompress (List.replicate 10 97)) =
      Except.ok (List.replicate 10 97) := by
  constructor
  · intro hist off len h1 h2 h3
    have := lzCopyAux_overlap len hist (hist.length - off) 0 (by omega) (by omega)
    simpa using this
  · decide

/-- C7 witness: the no-eviction copy equation at `hist = [4, 5, 6]`,
`offset 2`, `length 3` (a self-overlapping copy, `length > offset`). -/
theorem lz_selfoverlap_copy_witness :
    1 ≤ 2 ∧ 2 ≤ ([4, 5, 6] : List Nat).length ∧
    ([4, 5, 6] : List Nat).length + 3 ≤ 20 ∧
    lzCopyAux [4, 5, 6] (([4, 5, 6] : List Nat).length - 2) 0 3 =
      some (overlapCopy [4, 5, 6] (([4, 5, 6] : List Nat).length - 2) 3,
            [4, 5, 6] ++ overlapCopy [4, 5, 6] (([4, 5, 6] : List Nat).length - 2) 3) :=
  ⟨by decide, by decide, by decide,
    lz_selfoverlap_copy.1 [4, 5, 6] 2 3 (by decide) (by decide) (by decide)⟩

/-- C8: the search buffer and the history buffer never exceed the window
capacity of 20, and an append past capacity evicts exactly the oldest
byte: `pushWindow` preserves the bound, acts as `tail ++ [b]` at capacity
and as a plain append below it, and both the encoder loop and the decoder
token loop preserve the bound. -/
theorem lz_window_bound :
    (∀ (w : List Nat) (b : Nat), w.length ≤ 20 → (pushWindow w b).length ≤ 20) ∧
    (∀ (w : List Nat) (b : Nat), w.length = 20 → pushWindow w b = w.tail ++ [b]) ∧
    (∀ (w : List Nat) (b : Nat), w.length < 20 → pushWindow w b = w ++ [b]) ∧
    (∀ (fuel : Nat) (search look input : List Nat), search.length ≤ 20 →
      (lzEncLoopF fuel search look input).2.length ≤ 20) ∧
    (∀ (x hist o l h : List Nat), hist.length ≤ 20 →
      lzTokens hist x = Except.ok (o, l, h) → h.length ≤ 20) := by
  refine ⟨pushWindow_length_le, ?_, ?_, lzEncLoopF_search_le, ?_⟩
  · intro w b hw
    cases w with
    | nil => simp at hw
    | cons a w' =>
      unfold pushWindow
      rw [if_pos (by simp at hw ⊢; omega)]
      simp
  · intro w b hw
    unfold pushWindow
    rw [if_neg (by simp; omega)]
  · intro x hist o l h hle hok
    exact lzTokens_hist_le x.length x (Nat.le_refl _) hist o l h hle hok

/-- C8 witness: the bound and eviction equations at concrete windows, the
encoder loop on `[8, 8, 8]`, and the decoder history after a literal. -/
theorem lz_window_bound_witness :
    (pushWindow (List.replicate 20 7) 9).length ≤ 20 ∧
    pushWindow (List.replicate 20 7) 9 = (List.replicate 20 7).tail ++ [9] ∧
    pushWindow [1, 2] 9 = [1, 2] ++ [9] ∧
    (lzEncLoopF 3 [4] [] [8, 8, 8]).2.length ≤ 20 ∧
    ([3, 7] : List Nat).length ≤ 20 :=
  ⟨lz_window_bound.1 (List.replicate 20 7) 9 (by decide),
   lz_window_bound.2.1 (List.replicate 20 7) 9 (by decide),
   lz_window_bound.2.2.1 [1, 2] 9 (by decide),
   lz_window_bound.2.2.2.1 3 [4] [] [8, 8, 8] (by decide),
   lz_window_bound.2.2.2.2 [0, 7] [3] [7] [] [3, 7] (by decide) (by decide)⟩

/-- C10: every match the encoder's search accepts satisfies
`1 ≤ offset ≤ searchLen ≤ 20` and `length ≤ offset` (the prefix comparison
is bounded by the end of the search buffer), so the emitted token stream —
for the loop from any window state, and for any full chunked encoder run —
never contains a self-overlapping match. -/
theorem lz_no_selfoverlap_match :
    (∀ (search look : List Nat) (off len : Nat), search.length ≤ 20 →
      findBestMatch search look = (off, len) → 3 ≤ len →
      1 ≤ off ∧ off ≤ search.length ∧ off ≤ 20 ∧ len ≤ off) ∧
    (∀ (fuel : Nat) (search look input : List Nat), search.length ≤ 20 →
      TokenSeq (lzEncLoopF fuel search look input).1) ∧
    (∀ chunks : List (List Nat), TokenSeq (lzCompressChunks chunks).tail) := by
  refine ⟨?_, lzEncLoopF_tokenSeq, ?_⟩
  · intro search look off len h20 h h3
    obtain ⟨h1, h2, h4⟩ := findBestMatch_bounds search look off len h h3
    exact ⟨h1, h2, by omega, h4⟩
  · intro chunks
    show TokenSeq (lzEncFeedAll [] chunks).1
    exact lzEncFeedAll_tokenSeq chunks [] (by simp)

/-- C10 witness: the search bound at `search = [7, 8, 9]`,
`look = [7, 8, 9, 1]` (the accepted match is `(offset 3, length 3)`), and
the token stream emitted for the input `[1, 2]`. -/
theorem lz_no_selfoverlap_match_witness :
    (([7, 8, 9] : List Nat).length ≤ 20 ∧
      findBestMatch [7, 8, 9] [7, 8, 9, 1] = (3, 3) ∧
      (1 ≤ 3 ∧ 3 ≤ ([7, 8, 9] : List Nat).length ∧ 3 ≤ 20 ∧ 3 ≤ 3)) ∧
    TokenSeq (lzEncLoopF 2 [] [] [1, 2]).1 :=
  ⟨⟨by decide, by decide,
    lz_no_selfoverlap_match.1 [7, 8, 9] [7, 8, 9, 1] 3 3 (by decide) (by decide) (by decide)⟩,
   lz_no_selfoverlap_match.2.1 2 [] [] [1, 2] (by decide)⟩
